import Mathlib

/-!
Verification of the `principia::base` hexadecimal codec
(`src/base/hexadecimal_body.hpp`) and of the `PushDeserializer`
streaming pipeline (header in `src/unnamed/part_000`; its implementation
file `push_deserializer_body.hpp` is not part of the sources, so the
pipeline operations are modelled from the spec).

Byte buffers are embedded as `List Nat` whose elements are below 256
(`uint8_t`); sizes are `Nat` (the C++ `int64_t` sizes are nonnegative in
every reachable call).
-/

set_option maxRecDepth 10000

namespace Principia

/-- The 512-character lookup table `kByteToHexadecimalDigits` of
`hexadecimal_body.hpp`: entry `2*b, 2*b+1` holds the two uppercase
hexadecimal digits of byte `b`.  The string literal is copied from the
source (the C++ concatenation of adjacent literals becomes `++`). -/
def kByteToHexadecimalDigits : String :=
  "000102030405060708090A0B0C0D0E0F101112131415161718191A1B1C1D1E1F2021222324"
  ++ "25262728292A2B2C2D2E2F303132333435363738393A3B3C3D3E3F40414243444546474849"
  ++ "4A4B4C4D4E4F505152535455565758595A5B5C5D5E5F606162636465666768696A6B6C6D6E"
  ++ "6F707172737475767778797A7B7C7D7E7F808182838485868788898A8B8C8D8E8F90919293"
  ++ "9495969798999A9B9C9D9E9FA0A1A2A3A4A5A6A7A8A9AAABACADAEAFB0B1B2B3B4B5B6B7B8"
  ++ "B9BABBBCBDBEBFC0C1C2C3C4C5C6C7C8C9CACBCCCDCECFD0D1D2D3D4D5D6D7D8D9DADBDCDD"
  ++ "DEDFE0E1E2E3E4E5E6E7E8E9EAEBECEDEEEFF0F1F2F3F4F5F6F7F8F9FAFBFCFDFEFF"

/-- The table as a list of byte values (ASCII codes of its characters). -/
def hexDigits : List Nat :=
  kByteToHexadecimalDigits.toList.map Char.toNat

/-- Reading `kByteToHexadecimalDigits[i]` as a byte. -/
def hexDigitAt (i : Nat) : Nat :=
  hexDigits.getD i 0

/-- The seven-zero block produced by the C macro `SKIP_7`. -/
def skip7 : List Nat := [0, 0, 0, 0, 0, 0, 0]

/-- The 26-zero block produced by the C macro `SKIP_26`. -/
def skip26 : List Nat := skip7 ++ skip7 ++ skip7 ++ [0, 0, 0, 0, 0]

/-- The 48-zero block produced by the C macro `SKIP_48`. -/
def skip48 : List Nat := skip26 ++ skip7 ++ skip7 ++ skip7 ++ [0]

/-- The 256-entry table `kHexadecimalDigitsToNibble`: the initializer
lists entries up to index 102 (`'f'`) and C value-initializes the
remaining 153 entries to zero. -/
def kHexadecimalDigitsToNibble : List Nat :=
  skip48 ++ [0, 1, 2, 3, 4, 5, 6, 7, 8, 9]
  ++ skip7 ++ [0xa, 0xb, 0xc, 0xd, 0xe, 0xf]
  ++ skip26 ++ [0xa, 0xb, 0xc, 0xd, 0xe, 0xf]
  ++ List.replicate 153 0

/-- Reading `kHexadecimalDigitsToNibble[c]`. -/
def nibbleAt (c : Nat) : Nat :=
  kHexadecimalDigitsToNibble.getD c 0

/-- The two output bytes `HexadecimalEncode` produces for one input byte:
`memcpy(output, &kByteToHexadecimalDigits[*input << 1], 2)`. -/
def encodeByte (b : Nat) : List Nat :=
  [hexDigitAt (b <<< 1), hexDigitAt ((b <<< 1) + 1)]

/-- The function `HexadecimalEncode` on disjoint buffers, from the
input bytes to the `2 * input_size` output bytes it writes starting at
`output[0]` (the backward iteration order does not affect this
functional result; the in-place variant is modelled separately). -/
def HexadecimalEncode : List Nat → List Nat
  | [] => []
  | b :: rest => encodeByte b ++ HexadecimalEncode rest

/-- The output byte `HexadecimalDecode` produces from two input bytes:
`(kHexadecimalDigitsToNibble[*input] << 4) | kHexadecimalDigitsToNibble[*(input + 1)]`. -/
def decodePair (c1 c2 : Nat) : Nat :=
  (nibbleAt c1 <<< 4) ||| nibbleAt c2

/-- The function `HexadecimalDecode` on disjoint buffers:
`input_size &= ~1` discards
a trailing odd byte, then each pair of input bytes yields one output
byte, front to back. -/
def HexadecimalDecode : List Nat → List Nat
  | c1 :: c2 :: rest => decodePair c1 c2 :: HexadecimalDecode rest
  | _ => []

/-- The encoder together with its size precondition
`CHECK_GE(output_size, input_size << 1)`: `none` models the fatal
assertion, `some` the bytes written. -/
def HexadecimalEncodeChecked (input : List Nat) (output_size : Nat) : Option (List Nat) :=
  if input.length <<< 1 ≤ output_size then some (HexadecimalEncode input) else none

/-- The decoder together with its size precondition:
`input_size &= ~1` truncates to even, then
`CHECK_GE(output_size, input_size / 2)`. -/
def HexadecimalDecodeChecked (input : List Nat) (output_size : Nat) : Option (List Nat) :=
  if (input.length - input.length % 2) / 2 ≤ output_size then some (HexadecimalDecode input)
  else none

/-- Decoding the two table digits of a byte recovers the byte. -/
theorem decodePair_encodeByte : ∀ b, b < 256 →
    decodePair (hexDigitAt (b <<< 1)) (hexDigitAt ((b <<< 1) + 1)) = b := by decide

/-- Encoding writes two bytes per input byte. -/
theorem hexEncode_length : ∀ l : List Nat, (HexadecimalEncode l).length = 2 * l.length
  | [] => rfl
  | b :: rest => by
    simp only [HexadecimalEncode, encodeByte, List.cons_append, List.nil_append,
      List.length_cons, hexEncode_length rest]
    omega

/-- Decoding writes one byte per input pair, discarding a trailing odd byte. -/
theorem hexDecode_length : ∀ l : List Nat, (HexadecimalDecode l).length = l.length / 2
  | [] => rfl
  | [_] => by simp [HexadecimalDecode]
  | _ :: _ :: rest => by
    simp only [HexadecimalDecode, List.length_cons, hexDecode_length rest]
    omega

theorem hexDecode_hexEncode (l : List Nat) (hl : ∀ b ∈ l, b < 256) :
    HexadecimalDecode (HexadecimalEncode l) = l := by
  induction l with
  | nil => rfl
  | cons b rest ih =>
    have hb : b < 256 := hl b (List.mem_cons_self b rest)
    have hrest : ∀ x ∈ rest, x < 256 := fun x hx => hl x (List.mem_cons_of_mem b hx)
    simp only [HexadecimalEncode, encodeByte, List.cons_append, List.nil_append,
      List.append_eq, HexadecimalDecode, ih hrest, decodePair_encodeByte b hb]

/-- Claim C1: encoding a byte buffer with `HexadecimalEncode` (into an
output of size `2 * input_size`, which satisfies the size check) and
decoding the result with `HexadecimalDecode` (into an output of size
`input_size`) yields the original buffer. -/
theorem hexadecimal_roundtrip (l : List Nat) (hl : ∀ b ∈ l, b < 256) :
    HexadecimalDecode (HexadecimalEncode l) = l ∧
    (HexadecimalEncodeChecked l (2 * l.length)).bind
      (fun e => HexadecimalDecodeChecked e l.length) = some l := by
  have hmain := hexDecode_hexEncode l hl
  refine ⟨hmain, ?_⟩
  have h1 : l.length <<< 1 ≤ 2 * l.length := by
    simp [Nat.shiftLeft_eq]
    omega
  have h2 : ((HexadecimalEncode l).length - (HexadecimalEncode l).length % 2) / 2
      ≤ l.length := by
    rw [hexEncode_length]
    omega
  simp [HexadecimalEncodeChecked, HexadecimalDecodeChecked, h1, h2, hmain]

theorem hexadecimal_roundtrip_witness :
    HexadecimalDecode (HexadecimalEncode [0, 255, 171]) = [0, 255, 171] :=
  (hexadecimal_roundtrip [0, 255, 171] (by decide)).1

/-- Claim C6: `HexadecimalEncode` writes exactly `2 * input_size` bytes,
each input byte mapped through the lookup table; encoding
`{0x00, 0xFF, 0xAB}` yields the characters of `"00FFAB"`. -/
theorem hexadecimal_encode_shape :
    (∀ l : List Nat, (HexadecimalEncode l).length = 2 * l.length) ∧
    (∀ l : List Nat, HexadecimalEncode l = l.foldr (fun b acc => encodeByte b ++ acc) []) ∧
    HexadecimalEncode [0x00, 0xFF, 0xAB] = "00FFAB".toList.map Char.toNat := by
  refine ⟨hexEncode_length, ?_, by decide⟩
  intro l
  induction l with
  | nil => rfl
  | cons b rest ih => simp only [HexadecimalEncode, List.foldr_cons, ih]

/-- Claim C8: the encode assertion fails exactly when
`output_size < 2 * input_size`, the decode assertion fails exactly when
`output_size < (input_size truncated to even) / 2`, and under the
respective preconditions no assertion fires and the operations complete. -/
theorem hexadecimal_size_preconditions :
    (∀ l : List Nat, ∀ s : Nat,
        (HexadecimalEncodeChecked l s).isSome = true ↔ 2 * l.length ≤ s) ∧
    (∀ l : List Nat, ∀ s : Nat,
        (HexadecimalDecodeChecked l s).isSome = true ↔
          (l.length - l.length % 2) / 2 ≤ s) ∧
    (∀ l : List Nat, ∀ s : Nat, 2 * l.length ≤ s →
        HexadecimalEncodeChecked l s = some (HexadecimalEncode l)) ∧
    (∀ l : List Nat, ∀ s : Nat, (l.length - l.length % 2) / 2 ≤ s →
        HexadecimalDecodeChecked l s = some (HexadecimalDecode l)) := by
  have hs : ∀ n : Nat, n <<< 1 = 2 * n := by
    intro n
    simp [Nat.shiftLeft_eq]
    omega
  refine ⟨?_, ?_, ?_, ?_⟩
  · intro l s
    simp only [HexadecimalEncodeChecked, hs]
    split <;> simp_all
  · intro l s
    simp only [HexadecimalDecodeChecked]
    split <;> simp_all
  · intro l s h
    simp [HexadecimalEncodeChecked, hs, h]
  · intro l s h
    simp [HexadecimalDecodeChecked, h]

theorem hexadecimal_size_preconditions_witness :
    HexadecimalEncodeChecked [7] 2 = some (HexadecimalEncode [7]) :=
  hexadecimal_size_preconditions.2.2.1 [7] 2 (by decide)

/-- Replacing a lowercase hex letter `'a'`-`'f'` by its uppercase form. -/
def upcaseHexLetter (c : Nat) : Nat :=
  if 97 ≤ c ∧ c ≤ 102 then c - 32 else c

/-- Replacing an uppercase hex letter `'A'`-`'F'` by its lowercase form. -/
def downcaseHexLetter (c : Nat) : Nat :=
  if 65 ≤ c ∧ c ≤ 70 then c + 32 else c

/-- Two bytes that differ at most by the case of a hex letter:
`b` is `a` unchanged, or `a` with a lowercase hex letter uppercased, or
`a` with an uppercase hex letter lowercased. -/
def caseEquivalent (a b : Nat) : Prop :=
  b = a ∨ b = upcaseHexLetter a ∨ b = downcaseHexLetter a

theorem nibbleAt_upcase (c : Nat) : nibbleAt (upcaseHexLetter c) = nibbleAt c := by
  unfold upcaseHexLetter
  split
  case isTrue h =>
    obtain ⟨h1, h2⟩ := h
    interval_cases c <;> rfl
  case isFalse h => rfl

theorem nibbleAt_downcase (c : Nat) : nibbleAt (downcaseHexLetter c) = nibbleAt c := by
  unfold downcaseHexLetter
  split
  case isTrue h =>
    obtain ⟨h1, h2⟩ := h
    interval_cases c <;> rfl
  case isFalse h => rfl

theorem nibbleAt_caseEquivalent (a b : Nat) (h : caseEquivalent a b) :
    nibbleAt b = nibbleAt a := by
  rcases h with h | h | h
  · rw [h]
  · rw [h, nibbleAt_upcase]
  · rw [h, nibbleAt_downcase]

theorem hexDecode_respects_case :
    ∀ {l l' : List Nat}, List.Forall₂ caseEquivalent l l' →
      HexadecimalDecode l' = HexadecimalDecode l
  | _, _, .nil => rfl
  | _, _, .cons _ .nil => rfl
  | _, _, .cons h1 (.cons h2 ht) => by
    simp only [HexadecimalDecode, decodePair, hexDecode_respects_case ht,
      nibbleAt_caseEquivalent _ _ h1, nibbleAt_caseEquivalent _ _ h2]

/-- Claim C9: `HexadecimalDecode` is case-insensitive — changing the case
of hex letters at any positions of the input leaves the decoded bytes
unchanged, because the nibble table maps corresponding letters equally. -/
theorem hexadecimal_decode_case_insensitive :
    (∀ l l' : List Nat, List.Forall₂ caseEquivalent l l' →
        HexadecimalDecode l' = HexadecimalDecode l) ∧
    (∀ c : Nat, nibbleAt (upcaseHexLetter c) = nibbleAt c ∧
        nibbleAt (downcaseHexLetter c) = nibbleAt c) :=
  ⟨fun _ _ h => hexDecode_respects_case h,
   fun c => ⟨nibbleAt_upcase c, nibbleAt_downcase c⟩⟩

theorem hexadecimal_decode_case_insensitive_witness :
    HexadecimalDecode [65, 98, 70, 49] = HexadecimalDecode [97, 66, 70, 49] :=
  hexadecimal_decode_case_insensitive.1 [97, 66, 70, 49] [65, 98, 70, 49]
    (.cons (Or.inr (Or.inl (by decide)))
      (.cons (Or.inr (Or.inr (by decide)))
        (.cons (Or.inl rfl) (.cons (Or.inl rfl) .nil))))

/-- Whether byte `c` is the ASCII code of a hexadecimal digit. -/
def isHexDigitByte (c : Nat) : Bool :=
  (48 ≤ c && c ≤ 57) || (65 ≤ c && c ≤ 70) || (97 ≤ c && c ≤ 102)

/-- Claim C10: decoding never fails — every non-hex-digit byte is mapped
to nibble 0 by the table, decoding always writes `input_size / 2` bytes,
and with sufficient output size the checked operation always succeeds. -/
theorem hexadecimal_decode_total :
    (∀ c : Nat, c < 256 → isHexDigitByte c = false → nibbleAt c = 0) ∧
    (∀ l : List Nat, (HexadecimalDecode l).length = l.length / 2) ∧
    (∀ l : List Nat, ∀ s : Nat, l.length / 2 ≤ s →
        HexadecimalDecodeChecked l s = some (HexadecimalDecode l)) := by
  refine ⟨by decide, hexDecode_length, ?_⟩
  intro l s h
  have : (l.length - l.length % 2) / 2 ≤ s := by omega
  simp [HexadecimalDecodeChecked, this]

theorem hexadecimal_decode_total_witness :
    nibbleAt 103 = 0 ∧ HexadecimalDecodeChecked [103, 120] 1 = some [0] := by
  constructor
  · exact hexadecimal_decode_total.1 103 (by decide) (by decide)
  · have h := hexadecimal_decode_total.2.2 [103, 120] 1 (by decide)
    rw [h]
    decide

/-- Byte memory modelled as a function from addresses; one store. -/
def writeMem (mem : Nat → Nat) (a v : Nat) : Nat → Nat :=
  fun x => if x = a then v else mem x

theorem writeMem_apply (mem : Nat → Nat) (a v x : Nat) :
    writeMem mem a v x = if x = a then v else mem x := rfl

/-- One encode loop iteration at input index `k`:
`memcpy(output + 2*k, &kByteToHexadecimalDigits[input[k] << 1], 2)` —
the input byte is read once, then the two output bytes are stored. -/
def encodeStepMem (inOff outOff : Nat) (mem : Nat → Nat) (k : Nat) : Nat → Nat :=
  writeMem (writeMem mem (outOff + 2 * k) (hexDigitAt ((mem (inOff + k)) <<< 1)))
    (outOff + 2 * k + 1) (hexDigitAt (((mem (inOff + k)) <<< 1) + 1))

/-- The backward iteration of `HexadecimalEncode` over a single memory:
`encodeBackward inOff outOff mem k` performs the iterations for input
indices `k-1, k-2, …, 0`, highest index first, exactly as the source
loop runs from `input + input_size - 1` down. -/
def encodeBackward (inOff outOff : Nat) : (Nat → Nat) → Nat → (Nat → Nat)
  | mem, 0 => mem
  | mem, k + 1 => encodeBackward inOff outOff (encodeStepMem inOff outOff mem k) k

/-- One decode loop iteration at pair index `i`: reads `input[2*i]` and
`input[2*i + 1]`, then stores the combined byte at `output[i]`. -/
def decodeStepMem (inOff outOff : Nat) (mem : Nat → Nat) (i : Nat) : Nat → Nat :=
  writeMem mem (outOff + i) (decodePair (mem (inOff + 2 * i)) (mem (inOff + 2 * i + 1)))

/-- The forward iteration of `HexadecimalDecode`:
`decodeForward inOff outOff mem i k` performs the iterations for pair
indices `i, i+1, …, i+k-1`, lowest first, as the source loop runs from
`input` up. -/
def decodeForward (inOff outOff : Nat) : (Nat → Nat) → Nat → Nat → (Nat → Nat)
  | mem, _, 0 => mem
  | mem, i, k + 1 =>
      decodeForward inOff outOff (decodeStepMem inOff outOff mem i) (i + 1) k

theorem encodeBackward_spec (inOff outOff n : Nat)
    (hov : inOff ≤ outOff + 1 ∨ outOff + 2 * n ≤ inOff) :
    ∀ (k : Nat) (mem : Nat → Nat), k ≤ n →
      (∀ a, (∀ j, j < k → a ≠ outOff + 2 * j ∧ a ≠ outOff + 2 * j + 1) →
          encodeBackward inOff outOff mem k a = mem a) ∧
      (∀ i, i < k →
          encodeBackward inOff outOff mem k (outOff + 2 * i)
            = hexDigitAt ((mem (inOff + i)) <<< 1) ∧
          encodeBackward inOff outOff mem k (outOff + 2 * i + 1)
            = hexDigitAt (((mem (inOff + i)) <<< 1) + 1)) := by
  intro k
  induction k with
  | zero =>
    intro mem _
    exact ⟨fun a _ => rfl, fun i hi => absurd hi (Nat.not_lt_zero i)⟩
  | succ k ih =>
    intro mem hk
    have ihm := ih (encodeStepMem inOff outOff mem k) (Nat.le_of_succ_le hk)
    have hstep : ∀ x, x ≠ outOff + 2 * k → x ≠ outOff + 2 * k + 1 →
        encodeStepMem inOff outOff mem k x = mem x := by
      intro x hx1 hx2
      simp only [encodeStepMem, writeMem_apply, if_neg hx1, if_neg hx2]
    constructor
    · intro a ha
      have ha' : ∀ j, j < k → a ≠ outOff + 2 * j ∧ a ≠ outOff + 2 * j + 1 :=
        fun j hj => ha j (Nat.lt_succ_of_lt hj)
      have hak := ha k (Nat.lt_succ_self k)
      calc encodeBackward inOff outOff mem (k + 1) a
          = encodeStepMem inOff outOff mem k a := ihm.1 a ha'
        _ = mem a := hstep a hak.1 hak.2
    · intro i hi
      rcases Nat.lt_succ_iff_lt_or_eq.mp hi with hik | hik
      · -- earlier input byte: unchanged by the step at index k
        have hin : encodeStepMem inOff outOff mem k (inOff + i) = mem (inOff + i) := by
          refine hstep (inOff + i) ?_ ?_ <;> omega
        have := ihm.2 i hik
        rw [hin] at this
        exact this
      · subst hik
      -- the step at index i is the last write to these two output bytes
        have huntouched : ∀ j, j < i →
            outOff + 2 * i ≠ outOff + 2 * j ∧ outOff + 2 * i ≠ outOff + 2 * j + 1 := by
          intro j hj
          omega
        have huntouched1 : ∀ j, j < i →
            outOff + 2 * i + 1 ≠ outOff + 2 * j ∧ outOff + 2 * i + 1 ≠ outOff + 2 * j + 1 := by
          intro j hj
          omega
        constructor
        · calc encodeBackward inOff outOff mem (i + 1) (outOff + 2 * i)
              = encodeStepMem inOff outOff mem i (outOff + 2 * i) :=
                ihm.1 (outOff + 2 * i) huntouched
            _ = hexDigitAt ((mem (inOff + i)) <<< 1) := by
                simp only [encodeStepMem, writeMem_apply]
                rw [if_neg (show ¬(outOff + 2 * i = outOff + 2 * i + 1) by omega)]
                simp
        · calc encodeBackward inOff outOff mem (i + 1) (outOff + 2 * i + 1)
              = encodeStepMem inOff outOff mem i (outOff + 2 * i + 1) :=
                ihm.1 (outOff + 2 * i + 1) huntouched1
            _ = hexDigitAt (((mem (inOff + i)) <<< 1) + 1) := by
                simp only [encodeStepMem, writeMem_apply]
                simp

theorem decodeForward_spec (inOff outOff p : Nat)
    (hov : outOff ≤ inOff + 1 ∨ inOff + 2 * p ≤ outOff) :
    ∀ (k i : Nat) (mem : Nat → Nat), i + k ≤ p →
      (∀ a, (∀ t, t < k → a ≠ outOff + (i + t)) →
          decodeForward inOff outOff mem i k a = mem a) ∧
      (∀ t, t < k →
          decodeForward inOff outOff mem i k (outOff + (i + t))
            = decodePair (mem (inOff + 2 * (i + t))) (mem (inOff + 2 * (i + t) + 1))) := by
  intro k
  induction k with
  | zero =>
    intro i mem _
    exact ⟨fun a _ => rfl, fun t ht => absurd ht (Nat.not_lt_zero t)⟩
  | succ k ih =>
    intro i mem hik
    have ihm := ih (i + 1) (decodeStepMem inOff outOff mem i) (by omega)
    have hstep : ∀ x, x ≠ outOff + i → decodeStepMem inOff outOff mem i x = mem x := by
      intro x hx
      simp only [decodeStepMem, writeMem_apply, if_neg hx]
    have hstep0 : decodeStepMem inOff outOff mem i (outOff + i)
        = decodePair (mem (inOff + 2 * i)) (mem (inOff + 2 * i + 1)) := by
      simp [decodeStepMem, writeMem_apply]
    constructor
    · intro a ha
      have ha' : ∀ t, t < k → a ≠ outOff + (i + 1 + t) := by
        intro t ht
        have := ha (t + 1) (by omega)
        omega
      calc decodeForward inOff outOff mem i (k + 1) a
          = decodeStepMem inOff outOff mem i a := (ihm).1 a ha'
        _ = mem a := hstep a (by have := ha 0 (by omega); omega)
    · intro t ht
      rcases Nat.eq_zero_or_pos t with ht0 | htpos
      · subst ht0
        have ha' : ∀ u, u < k → outOff + (i + 0) ≠ outOff + (i + 1 + u) := by
          intro u hu
          omega
        calc decodeForward inOff outOff mem i (k + 1) (outOff + (i + 0))
            = decodeStepMem inOff outOff mem i (outOff + (i + 0)) := (ihm).1 _ ha'
          _ = decodePair (mem (inOff + 2 * (i + 0))) (mem (inOff + 2 * (i + 0) + 1)) :=
              hstep0
      · obtain ⟨u, rfl⟩ : ∃ u, t = u + 1 := ⟨t - 1, by omega⟩
        have hw := (ihm).2 u (by omega)
        have harg1 : decodeStepMem inOff outOff mem i (inOff + 2 * (i + 1 + u))
            = mem (inOff + 2 * (i + 1 + u)) := by
          refine hstep _ ?_
          rcases hov with hA | hB
          · omega
          · omega
        have harg2 : decodeStepMem inOff outOff mem i (inOff + 2 * (i + 1 + u) + 1)
            = mem (inOff + 2 * (i + 1 + u) + 1) := by
          refine hstep _ ?_
          rcases hov with hA | hB
          · omega
          · omega
        rw [harg1, harg2] at hw
        have he : i + 1 + u = i + (u + 1) := by omega
        rw [he] at hw
        calc decodeForward inOff outOff mem i (k + 1) (outOff + (i + (u + 1)))
            = decodeForward inOff outOff (decodeStepMem inOff outOff mem i)
                (i + 1) k (outOff + (i + (u + 1))) := rfl
          _ = decodePair (mem (inOff + 2 * (i + (u + 1)))) (mem (inOff + 2 * (i + (u + 1)) + 1)) := hw

/-- Element `i` of a mapped range. -/
theorem getD_map_range (f : Nat → Nat) (n i : Nat) (h : i < n) :
    ((List.range n).map f).getD i 0 = f i := by
  rw [List.getD_eq_getElem _ _ (by simpa using h)]
  simp

/-- The bytes of `HexadecimalEncode` at positions `2*i` and `2*i + 1`. -/
theorem hexEncode_getD : ∀ (l : List Nat) (i : Nat), i < l.length →
    (HexadecimalEncode l).getD (2 * i) 0 = hexDigitAt ((l.getD i 0) <<< 1) ∧
    (HexadecimalEncode l).getD (2 * i + 1) 0 = hexDigitAt (((l.getD i 0) <<< 1) + 1)
  | b :: rest, 0, _ => ⟨rfl, rfl⟩
  | b :: rest, i + 1, h => by
    have ih := hexEncode_getD rest i (by simp at h; omega)
    simp only [HexadecimalEncode, encodeByte, List.cons_append, List.nil_append,
      List.append_eq]
    rw [show 2 * (i + 1) = 2 * i + 1 + 1 from by ring]
    simp only [List.getD_cons_succ]
    exact ih

/-- The byte of `HexadecimalDecode` at position `i`. -/
theorem hexDecode_getD : ∀ (l : List Nat) (i : Nat), 2 * i + 1 < l.length →
    (HexadecimalDecode l).getD i 0 = decodePair (l.getD (2 * i) 0) (l.getD (2 * i + 1) 0)
  | [], _, h => by simp at h
  | [_], _, h => by simp at h
  | c1 :: c2 :: rest, 0, _ => rfl
  | c1 :: c2 :: rest, i + 1, h => by
    have ih := hexDecode_getD rest i (by simp at h; omega)
    simp only [HexadecimalDecode]
    rw [show 2 * (i + 1) = 2 * i + 1 + 1 from by ring]
    simp only [List.getD_cons_succ]
    exact ih

/-- Claim C7: under exactly the overlap geometries the assertions accept
(encode: `input ≤ output + 1` or `output + 2 * n ≤ input`; decode:
`output ≤ input + 1` or `input + n ≤ output`), the backward in-place
encode loop and the forward in-place decode loop leave in the output
window exactly the bytes the disjoint-buffer functions produce. -/
theorem hexadecimal_in_place_overlap :
    (∀ (mem : Nat → Nat) (inOff outOff n : Nat),
        inOff ≤ outOff + 1 ∨ outOff + 2 * n ≤ inOff →
        ∀ j, j < 2 * n →
          encodeBackward inOff outOff mem n (outOff + j)
            = (HexadecimalEncode ((List.range n).map (fun i => mem (inOff + i)))).getD j 0) ∧
    (∀ (mem : Nat → Nat) (inOff outOff p : Nat),
        outOff ≤ inOff + 1 ∨ inOff + 2 * p ≤ outOff →
        ∀ j, j < p →
          decodeForward inOff outOff mem 0 p (outOff + j)
            = (HexadecimalDecode ((List.range (2 * p)).map (fun i => mem (inOff + i)))).getD j 0) := by
  constructor
  · intro mem inOff outOff n hov j hj
    have hspec := encodeBackward_spec inOff outOff n hov n mem le_rfl
    have hlen : ((List.range n).map (fun i => mem (inOff + i))).length = n := by simp
    have h2 : j % 2 = 0 ∨ j % 2 = 1 := by omega
    rcases h2 with h2 | h2
    · obtain ⟨i, rfl⟩ : ∃ i, j = 2 * i := ⟨j / 2, by omega⟩
      have hi : i < n := by omega
      rw [(hspec.2 i hi).1, (hexEncode_getD _ i (by rw [hlen]; exact hi)).1,
        getD_map_range _ n i hi]
    · obtain ⟨i, rfl⟩ : ∃ i, j = 2 * i + 1 := ⟨j / 2, by omega⟩
      have hi : i < n := by omega
      rw [show outOff + (2 * i + 1) = outOff + 2 * i + 1 from by omega,
        (hspec.2 i hi).2, (hexEncode_getD _ i (by rw [hlen]; exact hi)).2,
        getD_map_range _ n i hi]
  · intro mem inOff outOff p hov j hj
    have hspec := decodeForward_spec inOff outOff p hov p 0 mem (by omega)
    have hw := hspec.2 j hj
    simp only [Nat.zero_add] at hw
    have hlen : ((List.range (2 * p)).map (fun i => mem (inOff + i))).length = 2 * p := by
      simp
    rw [show inOff + 2 * j + 1 = inOff + (2 * j + 1) from by omega] at hw
    rw [hw, hexDecode_getD _ j (by rw [hlen]; omega),
      getD_map_range _ (2 * p) (2 * j) (by omega),
      getD_map_range _ (2 * p) (2 * j + 1) (by omega)]

theorem hexadecimal_in_place_overlap_witness :
    encodeBackward 2 1 (fun a => a) 2 (1 + 0)
      = (HexadecimalEncode ((List.range 2).map (fun i => (fun a => a) (2 + i)))).getD 0 0 :=
  hexadecimal_in_place_overlap.1 (fun a => a) 2 1 2 (Or.inl (by omega)) 0 (by omega)

/-!
The `PushDeserializer` pipeline.  Only the class declaration is among
the sources (`src/unnamed/part_000`); the member definitions live in
`push_deserializer_body.hpp`, which is not in the repository snapshot,
so the operations below are modelled from the spec.  Chunks are byte
lists; the queue is the list of chunks enqueued and not yet consumed,
front first.
-/

/-- Modelled from the spec: the splitting step of
`PushDeserializer::Push` (its body is missing from the sources) —
"Splits `bytes` into pieces no larger than `chunk_size` (preserving
order)".  The fuel argument bounds the recursion; with
`fuel ≥ bytes.length` and `0 < chunk_size` it never runs out. -/
def splitIntoChunksFuel (chunk_size : Nat) : Nat → List Nat → List (List Nat)
  | _, [] => []
  | 0, _ :: _ => []
  | fuel + 1, b :: rest =>
      (b :: rest).take chunk_size ::
        splitIntoChunksFuel chunk_size fuel ((b :: rest).drop chunk_size)

/-- Modelled from the spec: the chunks `Push(bytes)` enqueues, in
enqueue order, for a nonempty `bytes`. -/
def splitIntoChunks (chunk_size : Nat) (bytes : List Nat) : List (List Nat) :=
  splitIntoChunksFuel chunk_size bytes.length bytes

theorem splitIntoChunksFuel_join (cs : Nat) (hcs : 0 < cs) :
    ∀ (fuel : Nat) (bytes : List Nat), bytes.length ≤ fuel →
      (splitIntoChunksFuel cs fuel bytes).flatten = bytes := by
  intro fuel
  induction fuel with
  | zero =>
    intro bytes hb
    cases bytes with
    | nil => rfl
    | cons b rest => simp at hb
  | succ fuel ih =>
    intro bytes hb
    cases bytes with
    | nil => rfl
    | cons b rest =>
      have hlen : ((b :: rest).drop cs).length ≤ fuel := by
        simp only [List.length_drop, List.length_cons]
        simp only [List.length_cons] at hb
        omega
      simp only [splitIntoChunksFuel, List.flatten_cons, ih _ hlen,
        List.take_append_drop]

theorem splitIntoChunksFuel_sizes (cs : Nat) :
    ∀ (fuel : Nat) (bytes : List Nat) (c : List Nat),
      c ∈ splitIntoChunksFuel cs fuel bytes → c.length ≤ cs := by
  intro fuel
  induction fuel with
  | zero =>
    intro bytes c hc
    cases bytes <;> simp [splitIntoChunksFuel] at hc
  | succ fuel ih =>
    intro bytes c hc
    cases bytes with
    | nil => simp [splitIntoChunksFuel] at hc
    | cons b rest =>
      simp only [splitIntoChunksFuel, List.mem_cons] at hc
      rcases hc with hc | hc
      · subst hc
        simp only [List.length_take]
        omega
      · exact ih _ c hc

/-- Modelled from the spec: the state of a `PushDeserializer` visible to
`Push` and `Pull` — the queue of pending chunks and whether the
end-of-input sentinel has been enqueued. -/
structure PDState where
  queue : List (List Nat)
  ended : Bool
deriving DecidableEq

/-- Modelled from the spec: `PushDeserializer::Push` (body missing from
the sources).  Pushing after the sentinel is a contract violation
(`none`); pushing empty `bytes` enqueues the size-0 sentinel chunk and
forbids further pushes; otherwise the split pieces are enqueued in
order. -/
def PDpush (chunk_size : Nat) (st : PDState) (bytes : List Nat) : Option PDState :=
  if st.ended then none
  else if bytes = [] then some ⟨st.queue ++ [[]], true⟩
  else some ⟨st.queue ++ splitIntoChunks chunk_size bytes, false⟩

/-- Modelled from the spec: `PushDeserializer::Pull` (body missing from
the sources) — returns the front chunk of the queue; `none` models
blocking on an empty queue. -/
def PDpull (st : PDState) : Option (List Nat × PDState) :=
  match st.queue with
  | [] => none
  | c :: rest => some (c, ⟨rest, st.ended⟩)

/-- The result of the `(k+1)`-th consecutive `Pull`. -/
def PDpullN (st : PDState) : Nat → Option (List Nat × PDState)
  | 0 => PDpull st
  | k + 1 =>
      match PDpull st with
      | none => none
      | some (_, st') => PDpullN st' k

/-- Claim C2: `Push` splits its argument into consecutive pieces of size
at most `chunk_size`, preserving byte order (their concatenation is the
argument), and enqueues them in that order; with `chunk_size = 4`,
pushing bytes `0..9` enqueues `[0,1,2,3], [4,5,6,7], [8,9]`. -/
theorem push_splits_bytes (cs : Nat) (hcs : 0 < cs) (bytes : List Nat)
    (hbytes : bytes ≠ []) (st : PDState) (hst : st.ended = false) :
    PDpush cs st bytes = some ⟨st.queue ++ splitIntoChunks cs bytes, false⟩ ∧
    (splitIntoChunks cs bytes).flatten = bytes ∧
    (∀ c ∈ splitIntoChunks cs bytes, c.length ≤ cs) ∧
    splitIntoChunks 4 [0, 1, 2, 3, 4, 5, 6, 7, 8, 9]
      = [[0, 1, 2, 3], [4, 5, 6, 7], [8, 9]] := by
  refine ⟨?_, splitIntoChunksFuel_join cs hcs bytes.length bytes le_rfl,
    fun c hc => splitIntoChunksFuel_sizes cs bytes.length bytes c hc, by decide⟩
  simp [PDpush, hst, hbytes]

theorem push_splits_bytes_witness :
    PDpush 4 ⟨[], false⟩ [0, 1, 2, 3, 4, 5, 6, 7, 8, 9]
      = some ⟨[[0, 1, 2, 3], [4, 5, 6, 7], [8, 9]], false⟩ := by
  have h := push_splits_bytes 4 (by decide) [0, 1, 2, 3, 4, 5, 6, 7, 8, 9]
    (by decide) ⟨[], false⟩ rfl
  rw [h.1, h.2.2.2]
  rfl

/-- Modelled from the spec: the reachable queue contents of a pipeline.
`Put` appends one chunk and blocks (is not enabled) unless
`queue.length < number_of_chunks`; every enqueued chunk is either a
piece produced by the splitting of some pushed `bytes` or the size-0
sentinel; `Get` removes the front chunk. -/
inductive QueueReachable (chunk_size number_of_chunks : Nat) :
    List (List Nat) → Prop where
  | start : QueueReachable chunk_size number_of_chunks []
  | put (q : List (List Nat)) (c : List Nat) (bytes : List Nat) :
      QueueReachable chunk_size number_of_chunks q →
      q.length < number_of_chunks →
      (c ∈ splitIntoChunks chunk_size bytes ∨ c = []) →
      QueueReachable chunk_size number_of_chunks (q ++ [c])
  | take (q : List (List Nat)) (c : List Nat) :
      QueueReachable chunk_size number_of_chunks (c :: q) →
      QueueReachable chunk_size number_of_chunks q

theorem sum_lengths_le (cs : Nat) :
    ∀ q : List (List Nat), (∀ c ∈ q, c.length ≤ cs) →
      (q.map List.length).sum ≤ q.length * cs := by
  intro q
  induction q with
  | nil => intro _; simp
  | cons c rest ih =>
    intro h
    have hc : c.length ≤ cs := h c (List.mem_cons_self c rest)
    have hrest := ih fun x hx => h x (List.mem_cons_of_mem c hx)
    simp only [List.map_cons, List.sum_cons, List.length_cons]
    calc c.length + (rest.map List.length).sum
        ≤ cs + rest.length * cs := Nat.add_le_add hc hrest
      _ = (rest.length + 1) * cs := by ring

/-- Claim C3: at every reachable state, the queue holds at most
`number_of_chunks` chunks, each of size at most `chunk_size`, so the
bytes buffered in the queue total at most
`number_of_chunks * chunk_size`. -/
theorem queue_bounded (cs cap : Nat) (q : List (List Nat))
    (h : QueueReachable cs cap q) :
    q.length ≤ cap ∧ (∀ c ∈ q, c.length ≤ cs) ∧
    (q.map List.length).sum ≤ cap * cs := by
  have hmain : q.length ≤ cap ∧ (∀ c ∈ q, c.length ≤ cs) := by
    induction h with
    | start => exact ⟨Nat.zero_le cap, by simp⟩
    | put q c bytes hq hroom hc ih =>
      refine ⟨by simp only [List.length_append, List.length_cons]; simpa using hroom, ?_⟩
      intro x hx
      rcases List.mem_append.mp hx with hx | hx
      · exact ih.2 x hx
      · have hxc : x = c := by simpa using hx
        subst hxc
        rcases hc with hc | hc
        · exact splitIntoChunksFuel_sizes cs bytes.length bytes x hc
        · simp [hc]
    | take q c hq ih =>
      refine ⟨?_, fun x hx => ih.2 x (List.mem_cons_of_mem c hx)⟩
      have := ih.1
      simp only [List.length_cons] at this
      omega
  refine ⟨hmain.1, hmain.2, ?_⟩
  calc (q.map List.length).sum ≤ q.length * cs := sum_lengths_le cs q hmain.2
    _ ≤ cap * cs := Nat.mul_le_mul_right cs hmain.1

theorem queue_bounded_witness :
    [[1, 2]].length ≤ 2 ∧ (∀ c ∈ [[1, 2]], c.length ≤ 4) ∧
    ([[1, 2]].map List.length).sum ≤ 2 * 4 :=
  queue_bounded 4 2 [[1, 2]]
    (by
      have h0 : QueueReachable 4 2 ([] : List (List Nat)) := .start
      have h1 := QueueReachable.put [] [1, 2] [1, 2] h0 (by decide)
        (Or.inl (by decide))
      simpa using h1)

/-- Modelled from the spec: one producer/consumer hand-off trace of the
bounded queue.  `pending` holds the chunks the producer has not yet
enqueued (front next), `queue` the enqueued, unconsumed chunks, and
`consumed` the chunks the consumer has extracted, in extraction order. -/
structure FifoState where
  pending : List (List Nat)
  queue : List (List Nat)
  consumed : List (List Nat)
deriving DecidableEq

/-- A scheduling choice: either the producer performs the next `Put`, or
the consumer performs a `Get`.  A `Put` on an exhausted producer or a
`Get` on an empty queue leaves the state unchanged (the thread would
block). -/
inductive FifoOp where
  | producer
  | consumer
deriving DecidableEq

def fifoStep (st : FifoState) : FifoOp → FifoState
  | .producer =>
      match st.pending with
      | [] => st
      | c :: p => ⟨p, st.queue ++ [c], st.consumed⟩
  | .consumer =>
      match st.queue with
      | [] => st
      | c :: q => ⟨st.pending, q, st.consumed ++ [c]⟩

def fifoRun (st : FifoState) : List FifoOp → FifoState
  | [] => st
  | op :: ops => fifoRun (fifoStep st op) ops

theorem fifoStep_invariant (st : FifoState) (op : FifoOp) :
    (fifoStep st op).consumed ++ (fifoStep st op).queue ++ (fifoStep st op).pending
      = st.consumed ++ st.queue ++ st.pending := by
  cases op with
  | producer =>
    cases hp : st.pending with
    | nil => simp [fifoStep, hp]
    | cons c p => simp [fifoStep, hp]
  | consumer =>
    cases hq : st.queue with
    | nil => simp [fifoStep, hq]
    | cons c q => simp [fifoStep, hq]

theorem fifoRun_invariant :
    ∀ (ops : List FifoOp) (st : FifoState),
      (fifoRun st ops).consumed ++ (fifoRun st ops).queue ++ (fifoRun st ops).pending
        = st.consumed ++ st.queue ++ st.pending := by
  intro ops
  induction ops with
  | nil => intro st; rfl
  | cons op ops ih =>
    intro st
    calc (fifoRun st (op :: ops)).consumed ++ (fifoRun st (op :: ops)).queue
          ++ (fifoRun st (op :: ops)).pending
        = (fifoStep st op).consumed ++ (fifoStep st op).queue
          ++ (fifoStep st op).pending := ih (fifoStep st op)
      _ = st.consumed ++ st.queue ++ st.pending := fifoStep_invariant st op

/-- Claim C4: for chunks handed to the producer in order `c1, …, cn` and
any interleaving of producer and consumer steps, the consumed sequence,
the queue and the unproduced remainder concatenate back to `c1, …, cn`
— no reordering, duplication or loss — and the consumed sequence is
always a prefix; once everything is produced and drained the consumer
has observed exactly `c1, …, cn`. -/
theorem fifo_order (chunks : List (List Nat)) (ops : List FifoOp) :
    (fifoRun ⟨chunks, [], []⟩ ops).consumed ++ (fifoRun ⟨chunks, [], []⟩ ops).queue
      ++ (fifoRun ⟨chunks, [], []⟩ ops).pending = chunks ∧
    (∃ rest, (fifoRun ⟨chunks, [], []⟩ ops).consumed ++ rest = chunks) ∧
    ((fifoRun ⟨chunks, [], []⟩ ops).pending = [] →
      (fifoRun ⟨chunks, [], []⟩ ops).queue = [] →
      (fifoRun ⟨chunks, [], []⟩ ops).consumed = chunks) := by
  have h := fifoRun_invariant ops ⟨chunks, [], []⟩
  simp only [List.nil_append, List.append_nil] at h
  refine ⟨h, ⟨(fifoRun ⟨chunks, [], []⟩ ops).queue
    ++ (fifoRun ⟨chunks, [], []⟩ ops).pending, by rw [← List.append_assoc]; exact h⟩, ?_⟩
  intro hp hq
  rw [hp, hq] at h
  simpa using h

theorem fifo_order_witness :
    (fifoRun ⟨[[1], [2]], [], []⟩
        [.producer, .producer, .consumer, .consumer]).consumed = [[1], [2]] :=
  (fifo_order [[1], [2]] [.producer, .producer, .consumer, .consumer]).2.2
    (by decide) (by decide)

/-- Claim C5: pushing a zero-length `bytes` enqueues the size-0 sentinel
chunk; from the resulting state, draining the queue makes `Pull` return
the size-0 chunk (after `queue.length` prior pulls), and every further
`Push` is a contract violation. -/
theorem sentinel_semantics (cs : Nat) (st : PDState) (hst : st.ended = false) :
    PDpush cs st [] = some ⟨st.queue ++ [[]], true⟩ ∧
    (∀ st' : PDState, PDpush cs st [] = some st' →
      st'.ended = true ∧
      PDpullN st' st.queue.length = some ([], ⟨[], true⟩) ∧
      (∀ bytes : List Nat, PDpush cs st' bytes = none)) := by
  have hpush : PDpush cs st [] = some ⟨st.queue ++ [[]], true⟩ := by
    simp [PDpush, hst]
  refine ⟨hpush, ?_⟩
  intro st' hst'
  rw [hpush] at hst'
  have hst'' : st' = ⟨st.queue ++ [[]], true⟩ := by
    exact (Option.some_injective _ hst').symm ▸ rfl
  subst hst''
  refine ⟨rfl, ?_, ?_⟩
  · have : ∀ q : List (List Nat),
        PDpullN ⟨q ++ [[]], true⟩ q.length = some ([], ⟨[], true⟩) := by
      intro q
      induction q with
      | nil => rfl
      | cons c rest ih =>
        simp only [List.cons_append, List.length_cons, PDpullN, PDpull]
        exact ih
    exact this st.queue
  · intro bytes
    simp [PDpush]

theorem sentinel_semantics_witness :
    PDpush 4 (⟨[[5, 6]], false⟩ : PDState) [] = some ⟨[[5, 6], []], true⟩ ∧
    PDpullN (⟨[[5, 6], []], true⟩ : PDState) 1 = some ([], ⟨[], true⟩) ∧
    PDpush 4 (⟨[[5, 6], []], true⟩ : PDState) [7] = none := by
  have h := sentinel_semantics 4 ⟨[[5, 6]], false⟩ rfl
  have h2 := h.2 ⟨[[5, 6], []], true⟩ (by rw [h.1]; rfl)
  exact ⟨h.1, h2.2.1, h2.2.2 [7]⟩

end Principia
